import Mathlib

/-
Verification development for the RAG_File_Reader pipeline.

Text is embedded as `List Char` (Python `str` is a sequence of unicode
code points, and Lean's `String` is a wrapper around `List Char`).
Character classes (`\s`, `\w`, `[a-zA-Z]`, upper/lower case) are modelled
at the ASCII level, which is the level at which the program's regexes and
claims speak.  External services (the langchain recursive splitter, the
Ollama embedding function, the cross-encoder, pypdf) are modelled as
function parameters or as explicit `Except`-valued inputs; everything the
repository itself computes is translated directly from its source.
-/

/-! # Character classes (ASCII model of Python's `\s`, `\w`, `[a-zA-Z]`) -/

/-- Python `\s` / `str.strip()` whitespace, ASCII part: space, tab,
newline, carriage return, form feed, vertical tab. -/
def isPyWs (c : Char) : Bool :=
  c = ' ' || c = '\t' || c = '\n' || c = '\r' || c = Char.ofNat 12 || c = Char.ofNat 11

/-- Python `\w` word characters, ASCII part: letters, digits, underscore. -/
def isWordChar (c : Char) : Bool :=
  c.isAlpha || c.isDigit || c = '_'

/-- Whether the first character of the list is a word character
(the right-hand side of a `\b` word-boundary test). -/
def headIsWord : List Char → Bool
  | [] => false
  | c :: _ => isWordChar c

/-- Whether the first character of the list is `\n`
(the lookahead of `(?<!\n)\n(?!\n)`). -/
def headIsNl : List Char → Bool
  | [] => false
  | c :: _ => c = '\n'

/-! # Python `str.strip()` -/

/-- Drop leading Python whitespace. -/
def trimLeftPy (l : List Char) : List Char := l.dropWhile isPyWs

/-- Drop trailing Python whitespace. -/
def trimRightPy (l : List Char) : List Char := (l.reverse.dropWhile isPyWs).reverse

/-- Python `str.strip()`: remove leading and trailing whitespace. -/
def pyStrip (l : List Char) : List Char := trimRightPy (trimLeftPy l)

/-! # Decimal rendering of naturals (Python `f"{idx}"`) -/

/-- The ASCII digit character for a digit value. -/
def digitChar (d : Nat) : Char := Char.ofNat (48 + d)

/-- Decimal digits of `n`, least significant first. -/
def natCharsRev : Nat → List Char
  | 0 => []
  | n + 1 => digitChar ((n + 1) % 10) :: natCharsRev ((n + 1) / 10)
decreasing_by exact Nat.div_lt_self (Nat.succ_pos n) (by omega)

/-- Decimal rendering of a natural number, as Python's `str(n)` /
`f"{n}"` renders it (most significant digit first, no leading zeros,
`0` for zero). -/
def natChars (n : Nat) : List Char :=
  if n = 0 then ['0'] else (natCharsRev n).reverse

/-- Value of a little-endian char digit list. -/
def ofRevDigits (l : List Char) : Nat :=
  l.foldr (fun c a => (c.toNat - 48) + 10 * a) 0

theorem digitChar_toNat (m : Nat) (h : m < 10) : (digitChar m).toNat = 48 + m := by
  interval_cases m <;> decide

theorem ofRevDigits_natCharsRev (n : Nat) : ofRevDigits (natCharsRev n) = n := by
  induction n using Nat.strong_induction_on with
  | _ n ih =>
    match n with
    | 0 => simp [natCharsRev, ofRevDigits]
    | n + 1 =>
      rw [natCharsRev]
      have hq : (n + 1) / 10 < n + 1 := Nat.div_lt_self (Nat.succ_pos n) (by omega)
      have := ih ((n + 1) / 10) hq
      simp only [ofRevDigits, List.foldr_cons] at *
      rw [this, digitChar_toNat ((n + 1) % 10) (Nat.mod_lt _ (by omega))]
      omega

theorem natCharsRev_injective {m n : Nat} (h : natCharsRev m = natCharsRev n) : m = n := by
  have := ofRevDigits_natCharsRev m
  rw [h, ofRevDigits_natCharsRev] at this
  omega

theorem natChars_injective {m n : Nat} (h : natChars m = natChars n) : m = n := by
  unfold natChars at h
  by_cases hm : m = 0 <;> by_cases hn : n = 0 <;> simp [hm, hn] at h ⊢
  · -- m = 0, n ≠ 0 : natCharsRev n reverses to ['0']
    exfalso
    have hrev : natCharsRev n = ['0'] := by
      have := congrArg List.reverse h
      simpa using this.symm
    have := ofRevDigits_natCharsRev n
    rw [hrev] at this
    simp [ofRevDigits] at this
    omega
  · exfalso
    have hrev : natCharsRev m = ['0'] := by
      have := congrArg List.reverse h
      simpa using this
    have := ofRevDigits_natCharsRev m
    rw [hrev] at this
    simp [ofRevDigits] at this
    omega
  · exact natCharsRev_injective h

theorem natChars_append_injective (file : List Char) {m n : Nat}
    (h : file ++ '_' :: natChars m = file ++ '_' :: natChars n) : m = n := by
  have h2 := List.append_cancel_left h
  exact natChars_injective (List.cons_injective h2)

/-! # `features/utils.py` : `clean_text`

`clean_text` applies four `re.sub` passes and a final `strip()`:
1. `(?<!\n)\n(?!\n)` → `' '`   (join broken lines)
2. `\s{2,}` → `' '`            (collapse whitespace runs)
3. `\b([a-zA-Z])\b` → `''`     (delete isolated single letters)
4. `(\b\w)\s+(\w\b)` → `\1\2`  (join one-character words split by spacing)

Each pass is a left-to-right scan over the original string; zero-width
`\b` assertions look at the characters of the original string, which the
scanners track via the word-ness of the previous original character. -/

/-- Pass 1 of `clean_text`: a `\n` neither preceded nor followed by
another `\n` becomes a space.  `prev` is the previous original char. -/
def joinBrokenLines (prev : Option Char) : List Char → List Char
  | [] => []
  | c :: cs =>
    (if c = '\n' && prev ≠ some '\n' && !headIsNl cs then ' ' else c) ::
      joinBrokenLines (some c) cs

/-- Whether the first character of the list is Python whitespace. -/
def headIsWs : List Char → Bool
  | [] => false
  | c :: _ => isPyWs c

/-- Pass 2 of `clean_text` (and pass 3 of `_preprocess_text`):
`\s{2,}` → `' '`.  A maximal whitespace run of length ≥ 2 becomes one
space; a single whitespace character is left alone. -/
def collapseWs : List Char → List Char
  | [] => []
  | c :: cs =>
    if isPyWs c && headIsWs cs then
      ' ' :: collapseWs (cs.dropWhile isPyWs)
    else
      c :: collapseWs cs
termination_by l => l.length
decreasing_by
  · simp only [List.length_cons]
    exact Nat.lt_succ_of_le (List.Sublist.length_le (List.dropWhile_sublist _))
  · simp

/-- Pass 3 of `clean_text`: `\b([a-zA-Z])\b` → `''`.  A single ASCII
letter with a word boundary on both sides is deleted.  `pw` is the
word-ness of the previous original character (`false` at string start). -/
def removeIsolatedLetters (pw : Bool) : List Char → List Char
  | [] => []
  | c :: cs =>
    if c.isAlpha && !pw && !headIsWord cs then
      removeIsolatedLetters (isWordChar c) cs
    else
      c :: removeIsolatedLetters (isWordChar c) cs

/-- Maximal leading Python-whitespace run and the rest. -/
def takeWsRun : List Char → List Char × List Char
  | [] => ([], [])
  | c :: cs =>
    if isPyWs c then
      let p := takeWsRun cs
      (c :: p.1, p.2)
    else
      ([], c :: cs)

/-- Attempt to match `(\b\w)\s+(\w\b)` with the first group at `c`
(previous original char word-ness `pw`).  On success returns the second
captured character and the remainder after the match. -/
def pairMatch (pw : Bool) (c : Char) (cs : List Char) : Option (Char × List Char) :=
  if isWordChar c && !pw then
    match takeWsRun cs with
    | ([], _) => none
    | (_ :: _, d :: rest) =>
      if isWordChar d && !headIsWord rest then some (d, rest) else none
    | (_ :: _, []) => none
  else none

theorem takeWsRun_append (l : List Char) : (takeWsRun l).1 ++ (takeWsRun l).2 = l := by
  induction l with
  | nil => simp [takeWsRun]
  | cons c cs ih =>
    by_cases h : isPyWs c <;> simp [takeWsRun, h, ih]

theorem pairMatch_length {pw : Bool} {c d : Char} {cs rest : List Char}
    (h : pairMatch pw c cs = some (d, rest)) : rest.length < cs.length := by
  unfold pairMatch at h
  by_cases h1 : isWordChar c && !pw
  · simp only [h1, if_true] at h
    rcases hw : takeWsRun cs with ⟨run, r2⟩
    rw [hw] at h
    match run, r2 with
    | [], _ => simp at h
    | w :: ws, [] => simp at h
    | w :: ws, e :: r3 =>
      by_cases h2 : isWordChar e && !headIsWord r3
      · simp only [h2, if_true, Option.some.injEq, Prod.mk.injEq] at h
        have hl := takeWsRun_append cs
        rw [hw] at hl
        have hlen := congrArg List.length hl
        simp only [List.length_append, List.length_cons] at hlen
        rcases h with ⟨_, hrest⟩
        subst hrest
        omega
      · simp [h2] at h
  · simp [h1] at h

/-- Pass 4 of `clean_text`: `(\b\w)\s+(\w\b)` → `\1\2`.  Two
one-character words separated by whitespace are joined; scanning resumes
after the second character. -/
def joinSplitChars (pw : Bool) : List Char → List Char
  | [] => []
  | c :: cs =>
    match h : pairMatch pw c cs with
    | some (d, rest) => c :: d :: joinSplitChars (isWordChar d) rest
    | none => c :: joinSplitChars (isWordChar c) cs
termination_by l => l.length
decreasing_by
  · have := pairMatch_length h
    simp only [List.length_cons]
    omega
  · simp

/-- `clean_text` from `features/utils.py`: the four `re.sub` passes
followed by `str.strip()`. -/
def clean_text (l : List Char) : List Char :=
  pyStrip (joinSplitChars false (removeIsolatedLetters false
    (collapseWs (joinBrokenLines none l))))

/-! # No isolated single letters after `clean_text` (claim C10) -/

/-- `true` iff the list contains an ASCII letter standing alone as a
one-character word: a letter whose neighbours (or the ends of the
string) are non-word characters.  `pw` is the word-ness of the character
preceding the list (`false` at string start). -/
def hasIsolatedLetter (pw : Bool) : List Char → Bool
  | [] => false
  | c :: cs =>
    (c.isAlpha && !pw && !headIsWord cs) || hasIsolatedLetter (isWordChar c) cs

theorem isPyWs_not_word {c : Char} (h : isPyWs c = true) : isWordChar c = false := by
  unfold isPyWs at h
  simp only [Bool.or_eq_true, decide_eq_true_eq] at h
  rcases h with ((((h | h) | h) | h) | h) | h <;> subst h <;> decide

theorem headIsWord_removeIsolatedLetters (cs : List Char) :
    headIsWord (removeIsolatedLetters true cs) = headIsWord cs := by
  cases cs with
  | nil => rfl
  | cons d ds => simp [removeIsolatedLetters, headIsWord]

theorem removeIsolatedLetters_no_isolated (l : List Char) : ∀ pw q : Bool,
    ((pw = true → q = true) ∨ headIsWord l = false) →
    hasIsolatedLetter q (removeIsolatedLetters pw l) = false := by
  induction l with
  | nil => intro pw q _; rfl
  | cons c cs ih =>
    intro pw q hq
    by_cases hc : c.isAlpha && !pw && !headIsWord cs
    · rw [removeIsolatedLetters, if_pos hc]
      refine ih (isWordChar c) q (Or.inr ?_)
      simp only [Bool.and_eq_true, Bool.not_eq_true'] at hc
      exact hc.2
    · rw [removeIsolatedLetters, if_neg hc]
      rw [hasIsolatedLetter]
      refine Bool.or_eq_false_iff.mpr ⟨?_, ih (isWordChar c) (isWordChar c) (Or.inl fun h => h)⟩
      by_cases ha : c.isAlpha
      · have hw : isWordChar c = true := by
          unfold isWordChar; simp [ha]
        rw [hw, headIsWord_removeIsolatedLetters]
        simp only [ha, Bool.true_and, Bool.and_eq_true, Bool.not_eq_true',
          Bool.not_eq_true] at hc
        by_cases hpw : pw = true
        · rcases hq with hq | hq
          · simp [hq hpw]
          · rw [headIsWord, hw] at hq
            exact absurd hq (by simp)
        · have hpf : pw = false := by simpa using hpw
          have h2 : headIsWord cs = true := by
            by_contra hx
            exact hc ⟨hpf, by simpa using hx⟩
          simp [h2]
      · simp [ha]

theorem headIsWord_joinSplitChars (pw : Bool) (cs : List Char)
    (h : headIsWord cs = true) : headIsWord (joinSplitChars pw cs) = true := by
  cases cs with
  | nil => exact absurd h (by simp [headIsWord])
  | cons e es =>
    rw [joinSplitChars]
    rcases hp : pairMatch pw e es with _ | ⟨d, rest⟩ <;> simpa [headIsWord] using h

/-- Word-ness of the character just before the end of `xs`, starting
from context `q` (used to walk `hasIsolatedLetter` across an append). -/
def ctxAfter (q : Bool) : List Char → Bool
  | [] => q
  | c :: cs => ctxAfter (isWordChar c) cs

theorem hasIsolatedLetter_append {xs : List Char} : ∀ {q : Bool} {ys : List Char},
    hasIsolatedLetter q (xs ++ ys) = false →
    hasIsolatedLetter (ctxAfter q xs) ys = false := by
  induction xs with
  | nil => intro q ys h; exact h
  | cons x xs' ih =>
    intro q ys h
    rw [List.cons_append, hasIsolatedLetter] at h
    rcases Bool.or_eq_false_iff.mp h with ⟨_, h2⟩
    exact ih h2

theorem ctxAfter_append_singleton (q : Bool) (xs : List Char) (d : Char) :
    ctxAfter q (xs ++ [d]) = isWordChar d := by
  induction xs generalizing q with
  | nil => rfl
  | cons x xs' ih => rw [List.cons_append, ctxAfter, ih]

theorem pairMatch_spec {pw : Bool} {c d : Char} {cs rest : List Char}
    (h : pairMatch pw c cs = some (d, rest)) :
    isWordChar c = true ∧ pw = false ∧ isWordChar d = true ∧
    headIsWord rest = false ∧ ∃ run, run ≠ [] ∧ cs = run ++ d :: rest := by
  unfold pairMatch at h
  by_cases h1 : isWordChar c && !pw
  · simp only [h1, if_true] at h
    rcases hw : takeWsRun cs with ⟨run, r2⟩
    rw [hw] at h
    match run, r2 with
    | [], _ => simp at h
    | w :: ws, [] => simp at h
    | w :: ws, e :: r3 =>
      by_cases h2 : isWordChar e && !headIsWord r3
      · simp only [h2, if_true, Option.some.injEq, Prod.mk.injEq] at h
        rcases h with ⟨hd, hrest⟩
        subst hd; subst hrest
        simp only [Bool.and_eq_true, Bool.not_eq_true'] at h1 h2
        refine ⟨h1.1, h1.2, h2.1, h2.2, w :: ws, by simp, ?_⟩
        have hl := takeWsRun_append cs
        rw [hw] at hl
        exact hl.symm
      · simp [h2] at h
  · simp [h1] at h

theorem joinSplitChars_no_isolated : ∀ (pw : Bool) (l : List Char),
    hasIsolatedLetter pw l = false →
    hasIsolatedLetter pw (joinSplitChars pw l) = false := by
  intro pw l
  induction pw, l using joinSplitChars.induct with
  | case1 pw => intro _; simp [joinSplitChars, hasIsolatedLetter]
  | case2 pw c cs d rest hp ih =>
    intro h
    obtain ⟨hc, hpw, hd, hrest, run, hrun, hcs⟩ := pairMatch_spec hp
    subst hcs
    have hx : c :: (run ++ d :: rest) = (c :: run ++ [d]) ++ rest := by simp
    rw [hx] at h
    have h3 := hasIsolatedLetter_append h
    simp only [ctxAfter, List.append_eq] at h3
    rw [ctxAfter_append_singleton] at h3
    rw [joinSplitChars, hp]
    have ih2 := ih h3
    rw [hd] at ih2
    simp only [hasIsolatedLetter, headIsWord, hc, hd, ih2]
    simp
  | case3 pw c cs hp ih =>
    intro h
    rw [hasIsolatedLetter] at h
    rcases Bool.or_eq_false_iff.mp h with ⟨h1, h2⟩
    rw [joinSplitChars, hp]
    rw [hasIsolatedLetter]
    refine Bool.or_eq_false_iff.mpr ⟨?_, ih h2⟩
    by_cases hca : (c.isAlpha && !pw) = true
    · have hcs : headIsWord cs = true := by
        by_contra hx
        simp only [hca, Bool.true_and] at h1
        exact hx (by simpa using h1)
      rw [headIsWord_joinSplitChars _ _ hcs]
      simp
    · have hf : (c.isAlpha && !pw) = false := by simpa using hca
      rcases Bool.and_eq_false_iff.mp hf with hf1 | hf2
      · simp [hf1]
      · simp [hf2]

theorem headIsWord_append_nonword (xs ys : List Char)
    (hys : ∀ c ∈ ys, isWordChar c = false) :
    headIsWord (xs ++ ys) = headIsWord xs := by
  cases xs with
  | nil =>
    cases ys with
    | nil => rfl
    | cons y ys' => simp [headIsWord, hys y (by simp)]
  | cons x xs' => rfl

theorem hasIsolatedLetter_append_nonword {ys : List Char}
    (hys : ∀ c ∈ ys, isWordChar c = false) :
    ∀ (xs : List Char) (q : Bool), hasIsolatedLetter q (xs ++ ys) = false →
    hasIsolatedLetter q xs = false := by
  intro xs
  induction xs with
  | nil => intro q _; rfl
  | cons x xs' ih =>
    intro q h
    rw [List.cons_append, hasIsolatedLetter] at h
    rcases Bool.or_eq_false_iff.mp h with ⟨h1, h2⟩
    rw [hasIsolatedLetter]
    refine Bool.or_eq_false_iff.mpr ⟨?_, ih (isWordChar x) h2⟩
    rwa [headIsWord_append_nonword xs' ys hys] at h1

theorem trimLeftPy_no_isolated : ∀ l : List Char,
    hasIsolatedLetter false l = false →
    hasIsolatedLetter false (trimLeftPy l) = false := by
  intro l
  induction l with
  | nil => intro _; rfl
  | cons c cs ih =>
    intro h
    rw [hasIsolatedLetter] at h
    rcases Bool.or_eq_false_iff.mp h with ⟨_, h2⟩
    by_cases hc : isPyWs c
    · rw [trimLeftPy, List.dropWhile_cons_of_pos hc]
      rw [isPyWs_not_word hc] at h2
      exact ih h2
    · rw [trimLeftPy, List.dropWhile_cons_of_neg hc]
      exact h

theorem trimRightPy_no_isolated (l : List Char) (q : Bool)
    (h : hasIsolatedLetter q l = false) :
    hasIsolatedLetter q (trimRightPy l) = false := by
  have hdec : l = trimRightPy l ++ (l.reverse.takeWhile isPyWs).reverse := by
    unfold trimRightPy
    have := List.takeWhile_append_dropWhile (p := isPyWs) (l := l.reverse)
    calc l = l.reverse.reverse := by simp
    _ = (l.reverse.takeWhile isPyWs ++ l.reverse.dropWhile isPyWs).reverse := by rw [this]
    _ = (l.reverse.dropWhile isPyWs).reverse ++ (l.reverse.takeWhile isPyWs).reverse := by
          rw [List.reverse_append]
  have hys : ∀ c ∈ (l.reverse.takeWhile isPyWs).reverse, isWordChar c = false := by
    intro c hcmem
    rw [List.mem_reverse] at hcmem
    exact isPyWs_not_word (List.mem_takeWhile_imp hcmem)
  rw [hdec] at h
  exact hasIsolatedLetter_append_nonword hys _ q h

theorem pyStrip_no_isolated (l : List Char)
    (h : hasIsolatedLetter false l = false) :
    hasIsolatedLetter false (pyStrip l) = false :=
  trimRightPy_no_isolated _ _ (trimLeftPy_no_isolated _ h)

theorem clean_text_no_isolated_aux (l : List Char) :
    hasIsolatedLetter false (clean_text l) = false := by
  unfold clean_text
  apply pyStrip_no_isolated
  apply joinSplitChars_no_isolated
  exact removeIsolatedLetters_no_isolated _ _ _ (Or.inl fun h => h)

/-! # `features/document_loader.py` : `ScientificTextSplitter._preprocess_text`

Five `re.sub` passes and a final `strip()`:
1. `Fig\.\s?\d+|Figure\s?\d+` → `''`     (remove figure refs)
2. `\n+` → `'\n'`                        (collapse line breaks)
3. `\s{2,}` → `' '`                      (remove extra spaces, same as in `clean_text`)
4. `^(\d{1,3}\s)` → `''` (MULTILINE)     (remove leading line numbers)
5. `(References|Bibliography)[\s\S]*$` → `''` (IGNORECASE; cut from the
   first occurrence of either word to the end of the text) -/

/-- Length of the maximal leading ASCII digit run. -/
def digitRun (l : List Char) : Nat := (l.takeWhile Char.isDigit).length

/-- Match `\s?\d+` at the start of `rest` (greedy: prefer consuming one
whitespace character when digits follow); returns the number of
characters consumed. -/
def figSuffixDrop (rest : List Char) : Option Nat :=
  match rest with
  | [] => none
  | w :: rest2 =>
    if isPyWs w then
      if digitRun rest2 = 0 then none else some (1 + digitRun rest2)
    else
      if digitRun (w :: rest2) = 0 then none else some (digitRun (w :: rest2))

/-- Match `Fig\.\s?\d+|Figure\s?\d+` at a position whose first character
is `c` and remainder `cs`; returns how many characters of `cs` belong to
the match (the two alternatives are mutually exclusive at character 4). -/
def figTailDrop (c : Char) (cs : List Char) : Option Nat :=
  if c = 'F' then
    match cs with
    | 'i' :: 'g' :: '.' :: rest => (figSuffixDrop rest).map (fun k => 3 + k)
    | 'i' :: 'g' :: 'u' :: 'r' :: 'e' :: rest => (figSuffixDrop rest).map (fun k => 5 + k)
    | _ => none
  else none

/-- Pass 1 of `_preprocess_text`: delete every match of
`Fig\.\s?\d+|Figure\s?\d+`, scanning left to right. -/
def removeFigRefs : List Char → List Char
  | [] => []
  | c :: cs =>
    match figTailDrop c cs with
    | some n => removeFigRefs (cs.drop n)
    | none => c :: removeFigRefs cs
termination_by l => l.length
decreasing_by
  · simp only [List.length_cons, List.length_drop]
    omega
  · simp

/-- Pass 2 of `_preprocess_text`: `\n+` → `'\n'` (a maximal newline run
becomes a single newline). -/
def collapseNl : List Char → List Char
  | [] => []
  | c :: cs =>
    if c = '\n' then '\n' :: collapseNl (cs.dropWhile (· = '\n'))
    else c :: collapseNl cs
termination_by l => l.length
decreasing_by
  · simp only [List.length_cons]
    exact Nat.lt_succ_of_le (List.Sublist.length_le (List.dropWhile_sublist _))
  · simp

/-- Match `\d{1,3}\s` at a position whose first character is `c` and
remainder `cs` (only called at a line start).  Greedy `\d{1,3}` with
backtracking succeeds only when the whole digit run has length 1–3 and
is followed by a whitespace character.  Returns the number of characters
of `cs` consumed and whether the consumed whitespace was a newline. -/
def lineNumTail (c : Char) (cs : List Char) : Option (Nat × Bool) :=
  if !c.isDigit then none
  else
    let r := 1 + digitRun cs
    if r > 3 then none
    else
      match cs.drop (r - 1) with
      | w :: _ => if isPyWs w then some (r, w = '\n') else none
      | [] => none

/-- Pass 4 of `_preprocess_text`: `^(\d{1,3}\s)` → `''` with MULTILINE,
i.e. at the string start and after every original newline. -/
def stripLineNums (atStart : Bool) : List Char → List Char
  | [] => []
  | c :: cs =>
    if atStart then
      match lineNumTail c cs with
      | some (n, nl) => stripLineNums nl (cs.drop n)
      | none => c :: stripLineNums (c = '\n') cs
    else
      c :: stripLineNums (c = '\n') cs
termination_by l => l.length
decreasing_by
  · simp only [List.length_cons, List.length_drop]
    omega
  · simp
  · simp

/-- Case-insensitive (ASCII lowering, as `re.IGNORECASE` acts on these
patterns) prefix match of `pat` against `l`. -/
def ciMatchAt : List Char → List Char → Bool
  | [], _ => true
  | _ :: _, [] => false
  | p :: ps, c :: cs => (p.toLower = c.toLower) && ciMatchAt ps cs

/-- The two alternatives of `(References|Bibliography)` match at the
start of `l`. -/
def refMarkerAt (l : List Char) : Bool :=
  ciMatchAt "References".toList l || ciMatchAt "Bibliography".toList l

/-- Pass 5 of `_preprocess_text`: `(References|Bibliography)[\s\S]*$`
with IGNORECASE replaced by the empty string: everything from the first
(case-insensitive) occurrence of either word to the end is removed. -/
def cutReferences : List Char → List Char
  | [] => []
  | c :: cs => if refMarkerAt (c :: cs) then [] else c :: cutReferences cs

/-- Whether `(References|Bibliography)` matches anywhere in `l`. -/
def containsRefMarker : List Char → Bool
  | [] => false
  | c :: cs => refMarkerAt (c :: cs) || containsRefMarker cs

/-- `_preprocess_text` from `ScientificTextSplitter`
(`features/document_loader.py` lines 94–101): the five `re.sub`
cleanups followed by `str.strip()`. -/
def preprocess_text (l : List Char) : List Char :=
  pyStrip (cutReferences (stripLineNums true (collapseWs (collapseNl (removeFigRefs l)))))

/-! # Documents, chunks and metadata

A langchain `Document` is a `page_content` string plus a `metadata`
dict.  `Document(page_content=..., metadata=...)` validates and copies
the metadata mapping (pydantic v2), so each chunk carries its own
metadata value; the model below therefore uses plain value semantics.
Metadata values occurring in this pipeline are strings, naturals
(chunk index / length / page), the heading list produced by
`extract_document_structure` and the figure list produced by
`extract_figures`. -/

/-- A heading record `{"level": level, "heading": text}` as produced by
`extract_document_structure`. -/
structure HeadingRec where
  level : Nat
  htext : List Char
deriving DecidableEq

/-- A figure record `{"page": page, "ocr_text": text}` as produced by
`extract_figures`. -/
structure FigureRec where
  page : Nat
  ocrText : List Char
deriving DecidableEq

/-- A metadata value. -/
inductive MetaVal where
  | str : List Char → MetaVal
  | nat : Nat → MetaVal
  | headingList : List HeadingRec → MetaVal
  | figureList : List FigureRec → MetaVal
deriving DecidableEq

/-- A metadata mapping: insertion-ordered key/value pairs (Python dict
with string keys). -/
abbrev Meta := List (List Char × MetaVal)

/-- Python `dict[key] = v` / one key of `dict.update`: replace the value
in place if the key exists, otherwise append the pair. -/
def setKey : Meta → List Char → MetaVal → Meta
  | [], k, v => [(k, v)]
  | (k', v') :: rest, k, v =>
    if k' = k then (k, v) :: rest else (k', v') :: setKey rest k v

/-- Python `dict.get(key)`: first value stored under the key. -/
def lookupMeta : Meta → List Char → Option MetaVal
  | [], _ => none
  | (k', v') :: rest, k => if k' = k then some v' else lookupMeta rest k

/-- A langchain `Document` as used by this pipeline: `page_content` and
`metadata`. -/
structure Chunk where
  pageContent : List Char
  metadata : Meta
deriving DecidableEq

/-- `ScientificTextSplitter.split_documents`
(`features/document_loader.py` lines 83–92): preprocess each document's
text, split it with the (inherited, external) recursive splitter
`split_text` — passed here as the function argument `splitText` — and
keep each chunk whose stripped content is non-empty, carrying the parent
document's metadata. -/
def split_documents (splitText : List Char → List (List Char))
    (documents : List Chunk) : List Chunk :=
  documents.flatMap fun doc =>
    (((splitText (preprocess_text doc.pageContent)).filter
        (fun chunk => !(pyStrip chunk).isEmpty)).map
      (fun chunk => { pageContent := chunk, metadata := doc.metadata }))

/-! # `features/embedding_store.py` : `add_to_vector_collection`

The per-chunk loop (lines 87–121): strip the text, skip chunks shorter
than `min_chunk_length`, skip chunks whose text hash was already seen in
this batch (Python `hash`, modelled as an arbitrary function
`hash : List Char → Int`), normalize the `headings` metadata and any
other list-valued metadata to strings, stamp `source_file` / `chunk_id`
/ `text_length`, and accumulate `documents`, `metadatas`, `ids` with
`ids[k] = f"{file_name}_{idx}"`. -/

/-- The `"headings"` metadata key. -/
def headingsKey : List Char := "headings".toList

/-- The `"source_file"` metadata key. -/
def sourceFileKey : List Char := "source_file".toList

/-- The `"chunk_id"` metadata key. -/
def chunkIdKey : List Char := "chunk_id".toList

/-- The `"text_length"` metadata key. -/
def textLengthKey : List Char := "text_length".toList

/-- `f"Level {heading['level']}: {heading['heading']}"`. -/
def headingLine (h : HeadingRec) : List Char :=
  "Level ".toList ++ natChars h.level ++ ": ".toList ++ h.htext

/-- `"\n".join(...)` over the heading lines. -/
def joinHeadings (hs : List HeadingRec) : List Char :=
  List.intercalate ['\n'] (hs.map headingLine)

/-- Rendering of Python `str(value)` for a list-valued metadata entry
(the exact text of this rendering is never relied upon downstream). -/
def strOfMetaVal : MetaVal → List Char
  | .str s => s
  | .nat n => natChars n
  | .headingList hs => List.intercalate "; ".toList (hs.map headingLine)
  | .figureList fs =>
      List.intercalate "; ".toList
        (fs.map fun f => "page ".toList ++ natChars f.page ++ ": ".toList ++ f.ocrText)

/-- The `isinstance(value, list)` normalization inside
`add_to_vector_collection`: a list value becomes `str(value)` when
non-empty and `"No data"` when empty; other values are unchanged. -/
def normalizeListVal : MetaVal → MetaVal
  | .headingList hs =>
      if hs.isEmpty then .str "No data".toList else .str (strOfMetaVal (.headingList hs))
  | .figureList fs =>
      if fs.isEmpty then .str "No data".toList else .str (strOfMetaVal (.figureList fs))
  | v => v

/-- The metadata transformation applied to one surviving chunk
(`features/embedding_store.py` lines 98–117): replace the `headings`
list with its joined string (or `"No headings found"`), normalize the
remaining list values, then stamp `source_file`, `chunk_id` and
`text_length`. -/
def transform_metadata (md : Meta) (file : List Char) (idx textLen : Nat) : Meta :=
  let md1 :=
    match lookupMeta md headingsKey with
    | some (.headingList hs) =>
        if !hs.isEmpty then setKey md headingsKey (.str (joinHeadings hs))
        else setKey md headingsKey (.str "No headings found".toList)
    | _ => setKey md headingsKey (.str "No headings found".toList)
  let md2 := md1.map fun kv => (kv.1, normalizeListVal kv.2)
  setKey (setKey (setKey md2 sourceFileKey (.str file)) chunkIdKey (.nat idx))
    textLengthKey (.nat textLen)

/-- The accumulation loop of `add_to_vector_collection`: `idx` is the
`enumerate` counter and `seen` the set of already-seen text hashes.
Returns `(documents, metadatas, ids)`. -/
def add_loop (file : List Char) (minLen : Nat) (hash : List Char → Int) :
    Nat → List Int → List Chunk → List (List Char) × List Meta × List (List Char)
  | _, _, [] => ([], [], [])
  | idx, seen, split :: rest =>
    let text := pyStrip split.pageContent
    if text.length < minLen then add_loop file minLen hash (idx + 1) seen rest
    else if hash text ∈ seen then add_loop file minLen hash (idx + 1) seen rest
    else
      let r := add_loop file minLen hash (idx + 1) (hash text :: seen) rest
      (text :: r.1,
       transform_metadata split.metadata file idx text.length :: r.2.1,
       (file ++ '_' :: natChars idx) :: r.2.2)

/-- The upsert batch built by `add_to_vector_collection` for
`all_splits` from one file (`min_chunk_length` defaults to 30 at the
call sites). -/
def add_to_vector_collection_batch (allSplits : List Chunk) (file : List Char)
    (minLen : Nat) (hash : List Char → Int) :
    List (List Char) × List Meta × List (List Char) :=
  add_loop file minLen hash 0 [] allSplits

/-- Ghost companion of `add_loop`: the surviving `(original index,
chunk)` pairs, in order. -/
def survivors (minLen : Nat) (hash : List Char → Int) :
    Nat → List Int → List Chunk → List (Nat × Chunk)
  | _, _, [] => []
  | idx, seen, split :: rest =>
    let text := pyStrip split.pageContent
    if text.length < minLen then survivors minLen hash (idx + 1) seen rest
    else if hash text ∈ seen then survivors minLen hash (idx + 1) seen rest
    else (idx, split) :: survivors minLen hash (idx + 1) (hash text :: seen) rest

theorem add_loop_eq_survivors (file : List Char) (minLen : Nat) (hash : List Char → Int) :
    ∀ (splits : List Chunk) (idx : Nat) (seen : List Int),
    add_loop file minLen hash idx seen splits =
      ((survivors minLen hash idx seen splits).map (fun p => pyStrip p.2.pageContent),
       (survivors minLen hash idx seen splits).map
         (fun p => transform_metadata p.2.metadata file p.1 (pyStrip p.2.pageContent).length),
       (survivors minLen hash idx seen splits).map (fun p => file ++ '_' :: natChars p.1)) := by
  intro splits
  induction splits with
  | nil => intro idx seen; simp [add_loop, survivors]
  | cons split rest ih =>
    intro idx seen
    simp only [add_loop, survivors]
    split_ifs with h1 h2
    · exact ih (idx + 1) seen
    · exact ih (idx + 1) seen
    · rw [ih (idx + 1) (hash (pyStrip split.pageContent) :: seen)]
      simp

theorem survivors_mem_spec {minLen : Nat} {hash : List Char → Int} :
    ∀ (splits : List Chunk) (idx : Nat) (seen : List Int) (p : Nat × Chunk),
    p ∈ survivors minLen hash idx seen splits →
    ∃ m, splits[m]? = some p.2 ∧ p.1 = idx + m ∧
      minLen ≤ (pyStrip p.2.pageContent).length := by
  intro splits
  induction splits with
  | nil => intro idx seen p h; simp [survivors] at h
  | cons split rest ih =>
    intro idx seen p h
    simp only [survivors] at h
    split_ifs at h with h1 h2
    · obtain ⟨m, hm, hidx, hlen⟩ := ih (idx + 1) seen p h
      exact ⟨m + 1, by simpa using hm, by omega, hlen⟩
    · obtain ⟨m, hm, hidx, hlen⟩ := ih (idx + 1) seen p h
      exact ⟨m + 1, by simpa using hm, by omega, hlen⟩
    · rcases List.mem_cons.mp h with hp | hp
      · subst hp
        exact ⟨0, by simp, by omega, by simpa using Nat.le_of_not_lt h1⟩
      · obtain ⟨m, hm, hidx, hlen⟩ :=
          ih (idx + 1) (hash (pyStrip split.pageContent) :: seen) p hp
        exact ⟨m + 1, by simpa using hm, by omega, hlen⟩

theorem survivors_pairwise {minLen : Nat} {hash : List Char → Int} :
    ∀ (splits : List Chunk) (idx : Nat) (seen : List Int),
    List.Pairwise (fun p q => p.1 < q.1) (survivors minLen hash idx seen splits) := by
  intro splits
  induction splits with
  | nil => intro idx seen; simp [survivors]
  | cons split rest ih =>
    intro idx seen
    simp only [survivors]
    split_ifs with h1 h2
    · exact ih (idx + 1) seen
    · exact ih (idx + 1) seen
    · refine List.Pairwise.cons ?_ (ih (idx + 1) _)
      intro q hq
      obtain ⟨m, _, hidx, _⟩ := survivors_mem_spec rest (idx + 1) _ q hq
      simp only
      omega

theorem survivors_hash_notin_seen {minLen : Nat} {hash : List Char → Int} :
    ∀ (splits : List Chunk) (idx : Nat) (seen : List Int) (p : Nat × Chunk),
    p ∈ survivors minLen hash idx seen splits →
    hash (pyStrip p.2.pageContent) ∉ seen := by
  intro splits
  induction splits with
  | nil => intro idx seen p h; simp [survivors] at h
  | cons split rest ih =>
    intro idx seen p h
    simp only [survivors] at h
    split_ifs at h with h1 h2
    · exact ih (idx + 1) seen p h
    · exact ih (idx + 1) seen p h
    · rcases List.mem_cons.mp h with hp | hp
      · subst hp; exact h2
      · have := ih (idx + 1) (hash (pyStrip split.pageContent) :: seen) p hp
        intro hmem
        exact this (List.mem_cons_of_mem _ hmem)

theorem survivors_no_earlier_dup {minLen : Nat} {hash : List Char → Int} :
    ∀ (splits : List Chunk) (idx : Nat) (seen : List Int) (p : Nat × Chunk),
    p ∈ survivors minLen hash idx seen splits →
    ∀ (m : Nat) (c : Chunk), splits[m]? = some c → idx + m < p.1 →
    pyStrip c.pageContent ≠ pyStrip p.2.pageContent := by
  intro splits
  induction splits with
  | nil => intro idx seen p h; simp [survivors] at h
  | cons split rest ih =>
    intro idx seen p h m c hc hlt
    simp only [survivors] at h
    split_ifs at h with h1 h2
    · -- head chunk dropped: too short
      match m with
      | 0 =>
        simp only [List.getElem?_cons_zero, Option.some.injEq] at hc
        subst hc
        obtain ⟨_, _, _, hlen⟩ := survivors_mem_spec rest (idx + 1) seen p h
        intro heq
        rw [heq] at h1
        omega
      | m' + 1 =>
        simp only [List.getElem?_cons_succ] at hc
        exact ih (idx + 1) seen p h m' c hc (by omega)
    · -- head chunk dropped: hash already seen
      match m with
      | 0 =>
        simp only [List.getElem?_cons_zero, Option.some.injEq] at hc
        subst hc
        have hnotin := survivors_hash_notin_seen rest (idx + 1) seen p h
        intro heq
        rw [heq] at h2
        exact hnotin h2
      | m' + 1 =>
        simp only [List.getElem?_cons_succ] at hc
        exact ih (idx + 1) seen p h m' c hc (by omega)
    · rcases List.mem_cons.mp h with hp | hp
      · subst hp
        simp only at hlt
        omega
      · match m with
        | 0 =>
          simp only [List.getElem?_cons_zero, Option.some.injEq] at hc
          subst hc
          have hnotin := survivors_hash_notin_seen rest (idx + 1)
            (hash (pyStrip split.pageContent) :: seen) p hp
          intro heq
          rw [heq] at hnotin
          exact hnotin (List.mem_cons_self _ _)
        | m' + 1 =>
          simp only [List.getElem?_cons_succ] at hc
          exact ih (idx + 1) (hash (pyStrip split.pageContent) :: seen) p hp m' c hc
            (by omega)

theorem lookupMeta_setKey_same (m : Meta) (k : List Char) (v : MetaVal) :
    lookupMeta (setKey m k v) k = some v := by
  induction m with
  | nil => simp [setKey, lookupMeta]
  | cons kv rest ih =>
    by_cases h : kv.1 = k
    · simp [setKey, h, lookupMeta]
    · simp [setKey, h, lookupMeta, ih]

theorem lookupMeta_setKey_diff (m : Meta) (k k' : List Char) (v : MetaVal)
    (h : k' ≠ k) : lookupMeta (setKey m k v) k' = lookupMeta m k' := by
  induction m with
  | nil => simp [setKey, lookupMeta, Ne.symm h]
  | cons kv rest ih =>
    obtain ⟨k0, v0⟩ := kv
    by_cases hk : k0 = k
    · subst hk
      simp [setKey, lookupMeta, Ne.symm h]
    · by_cases hk' : k0 = k'
      · subst hk'
        simp [setKey, lookupMeta, hk]
      · simp [setKey, lookupMeta, hk, hk', ih]

theorem transform_metadata_chunk_id (md : Meta) (file : List Char) (idx textLen : Nat) :
    lookupMeta (transform_metadata md file idx textLen) chunkIdKey = some (.nat idx) := by
  unfold transform_metadata
  rw [lookupMeta_setKey_diff _ _ _ _ (by decide), lookupMeta_setKey_same]

theorem transform_metadata_text_length (md : Meta) (file : List Char) (idx textLen : Nat) :
    lookupMeta (transform_metadata md file idx textLen) textLengthKey
      = some (.nat textLen) := by
  unfold transform_metadata
  rw [lookupMeta_setKey_same]

theorem transform_metadata_source_file (md : Meta) (file : List Char) (idx textLen : Nat) :
    lookupMeta (transform_metadata md file idx textLen) sourceFileKey
      = some (.str file) := by
  unfold transform_metadata
  rw [lookupMeta_setKey_diff _ _ _ _ (by decide),
    lookupMeta_setKey_diff _ _ _ _ (by decide), lookupMeta_setKey_same]

/-! # `features/embedding_store.py` : `re_rank_cross_encoders`

The cross-encoder is external; it is modelled as a function
`predict : List Char → List (List Char) → Except (List Char) (List α)`
over an ordered score type `α` (`Except.error` models a raised
exception, caught by the function's `try/except`).  Python's `sorted`
is stable, and `sorted(range(len(scores)), key=..., reverse=True)`
orders indices by strictly greater score, ties kept in original order:
this is a stable merge sort with the comparison `scores[j] ≤ scores[i]`. -/

/-- `re_rank_cross_encoders` (`features/embedding_store.py` lines
163–198).  Returns the concatenated top-document text joined by blank
lines and the chosen indices; returns `("", [])` when the document list
is empty or the prompt strips to nothing — before the model is ever
consulted — and on any model exception. -/
def re_rank_cross_encoders {α : Type} [LinearOrder α]
    (predict : List Char → List (List Char) → Except (List Char) (List α))
    (prompt : List Char) (documents : List (List Char)) (topK : Nat) :
    List Char × List Nat :=
  if documents.isEmpty || (pyStrip prompt).isEmpty then ([], [])
  else
    match predict prompt documents with
    | .error _ => ([], [])
    | .ok scores =>
      let rankedIndices :=
        (((scores.enum).mergeSort fun a b => decide (b.2 ≤ a.2)).map Prod.fst).take topK
      if rankedIndices.all (fun i => i < documents.length) then
        (List.intercalate "\n\n".toList (rankedIndices.map fun i => documents.getD i []),
         rankedIndices)
      else
        -- an out-of-range index raises IndexError, caught by the except branch
        ([], [])

/-! # `features/call_model.py` : `call_llm`

Only the context handling is the repository's own logic; the streaming
chat call is external.  Lines 50–56: strip the context, truncate to
`max_context_chars` and append a fixed notice when it is longer. -/

/-- The truncation notice appended by `call_llm`. -/
def truncationNotice : List Char := "\n\n[Context truncated due to length.]".toList

/-- The context string `call_llm` actually embeds in its prompt
(`features/call_model.py` lines 51–56; `max_context_chars` defaults to
12000 at the call site). -/
def call_llm_context (context : List Char) (maxContextChars : Nat) : List Char :=
  let c := pyStrip context
  if maxContextChars < c.length then c.take maxContextChars ++ truncationNotice else c

/-! # `app.py` state, `add_to_vector_collection`, and the reset handler

`app.py` creates its own `client = chromadb.Client()` (line 50), an
in-memory client distinct from the `chromadb.PersistentClient` that
`features/embedding_store.py` creates at module level and uses for all
upserts and queries.  The state model therefore keeps the two stores
separate: `appClientCollections` is the collection list of the app-level
in-memory client, and `storeRagApp` is the record list of the
PersistentClient's `"rag_app"` collection used by
`get_vector_collection`. -/

/-- One record of the vector collection: id, document text, metadata
(the embedding vector is computed externally from the text and adds no
information to the model). -/
structure VecRecord where
  rid : List Char
  rdoc : List Char
  rmeta : Meta
deriving DecidableEq

/-- Chroma upsert of a single record: overwrite the record with the
same id, or append. -/
def upsertOne (coll : List VecRecord) (r : VecRecord) : List VecRecord :=
  if coll.any (fun x => x.rid = r.rid) then
    coll.map fun x => if x.rid = r.rid then r else x
  else coll ++ [r]

/-- `collection.upsert(documents=..., metadatas=..., ids=...)` on a
whole batch. -/
def upsertRecords (coll : List VecRecord) (batch : List VecRecord) : List VecRecord :=
  batch.foldl upsertOne coll

/-- Zip the three lists built by `add_to_vector_collection` into records. -/
def zipRecords (ds : List (List Char)) (ms : List Meta) (ids : List (List Char)) :
    List VecRecord :=
  (ds.zip (ms.zip ids)).map fun p => ⟨p.2.2, p.1, p.2.1⟩

/-- The pipeline state visible to `app.py` and
`features/embedding_store.py`. -/
structure AppState where
  /-- Collections of the in-memory `chromadb.Client()` made in `app.py`. -/
  appClientCollections : List (List Char)
  /-- Records of the PersistentClient `rag_app` collection used by
  `get_vector_collection` for upsert and query. -/
  storeRagApp : List VecRecord
  /-- `st.session_state.processed_files`. -/
  processedFiles : List (List Char)
  /-- `st.session_state.processed_hashes`. -/
  processedHashes : List (List Char)
  /-- Content of `processed_files.json` when the file exists. -/
  processedFilesJson : Option (List (List Char))
deriving DecidableEq

/-- `add_to_vector_collection(all_splits, file_name, min_chunk_length)`
(`features/embedding_store.py` lines 71–143) as a state transition:
empty input or an empty filtered batch leave the state unchanged; a
successful upsert (`upsertOk = true`) writes the batch into the
persistent `rag_app` collection and appends the file to
`processed_files`; an upsert exception (`upsertOk = false`) is caught
and reported, leaving the state unchanged. -/
def add_to_vector_collection (hash : List Char → Int) (upsertOk : Bool)
    (s : AppState) (allSplits : List Chunk) (file : List Char) (minLen : Nat) :
    AppState :=
  if allSplits.isEmpty then s
  else
    let b := add_to_vector_collection_batch allSplits file minLen hash
    if b.1.isEmpty then s
    else if upsertOk then
      { s with
        storeRagApp := upsertRecords s.storeRagApp (zipRecords b.1 b.2.1 b.2.2),
        processedFiles :=
          if file ∈ s.processedFiles then s.processedFiles
          else s.processedFiles ++ [file] }
    else s

/-- The `"🗑️ Reset YMA Vector DB"` button handler (`app.py` lines
96–116): it deletes every collection of the **app-level in-memory
client**, clears `processed_files` and `processed_hashes` in session
state, and deletes `processed_files.json`.  The PersistentClient used
by `get_vector_collection` is a different client, so `storeRagApp` is
left untouched. -/
def reset_yma_vector_db (s : AppState) : AppState :=
  { appClientCollections := [],
    storeRagApp := s.storeRagApp,
    processedFiles := [],
    processedHashes := [],
    processedFilesJson := none }

/-! # `features/content_extraction.py` : `extract_document_structure`

pypdf is external: the model of an uploaded file records what the
library calls yield — whether `PdfReader` opens (`opened`), what
`reader.metadata.get("title", "")` returns or raises (`metaTitle`), and
what each `page.extract_text()` returns or raises (`pages`; an empty
string covers Python's falsy `None`/`""`, both skipped by
`if not text: continue`).  An `Except.error` anywhere aborts the `try`
body, so the headings accumulated so far are discarded and whatever was
already written into `structure` is returned. -/

deriving instance DecidableEq for Except

/-- What pypdf yields for an opened document. -/
structure ReaderData where
  /-- Result of `reader.metadata.get("title", "")` (or a raised error). -/
  metaTitle : Except (List Char) (List Char)
  /-- Result of `page.extract_text()` per page (or a raised error). -/
  pages : List (Except (List Char) (List Char))
deriving DecidableEq

/-- An uploaded file as seen through pypdf. -/
structure PdfInput where
  /-- `uploaded_file.name`. -/
  fileName : List Char
  /-- Result of `PdfReader(BytesIO(...))`. -/
  opened : Except (List Char) ReaderData
deriving DecidableEq

/-- The returned `{"title": ..., "headings": [...]}` dictionary. -/
structure DocStructure where
  title : List Char
  headings : List HeadingRec
deriving DecidableEq

/-- Python `str.isupper()` on the ASCII model: at least one cased
character and no lowercase one. -/
def pyIsUpper (l : List Char) : Bool :=
  l.any Char.isAlpha && l.all (fun c => !c.isLower)

/-- `re.match(r"^\d+[\.\)]?\s+[A-Z][a-zA-Z\s\-]+", line)`: a digit run,
an optional `.` or `)`, a whitespace run, an uppercase letter, and at
least one more letter/whitespace/hyphen. -/
def numberedHeadingMatch (l : List Char) : Bool :=
  let r := digitRun l
  if r = 0 then false
  else
    let l1 := l.drop r
    let l2 :=
      match l1 with
      | c :: rest => if c = '.' || c = ')' then rest else l1
      | [] => l1
    let w := (l2.takeWhile isPyWs).length
    if w = 0 then false
    else
      match l2.drop w with
      | c :: rest =>
        c.isUpper &&
          (match rest with
           | d :: _ => d.isAlpha || isPyWs d || d = '-'
           | [] => false)
      | [] => false

/-- `re.match(r"^#+\s+[A-Z]", line)`: a `#` run, a whitespace run, an
uppercase letter. -/
def markdownHeadingMatch (l : List Char) : Bool :=
  let h := (l.takeWhile (· = '#')).length
  if h = 0 then false
  else
    let l1 := l.drop h
    let w := (l1.takeWhile isPyWs).length
    if w = 0 then false
    else
      match l1.drop w with
      | c :: _ => c.isUpper
      | [] => false

/-- The per-line heading filter of `extract_document_structure` (lines
59–70): strip the line, drop lines shorter than 20 or longer than 120
characters, accept all-uppercase lines, numbered headings and
markdown-style headings. -/
def lineHeading (line : List Char) : Option (List Char) :=
  let cleaned := pyStrip line
  if cleaned.length < 20 || cleaned.length > 120 then none
  else if pyIsUpper cleaned then some cleaned
  else if numberedHeadingMatch cleaned then some cleaned
  else if markdownHeadingMatch cleaned then some cleaned
  else none

/-- Heading candidates of one page text: split on newlines, apply the
per-line filter. -/
def pageHeadings (text : List Char) : List (List Char) :=
  (text.splitOn '\n').filterMap lineHeading

/-- The page loop (lines 53–70): pages are processed in order; a falsy
extracted text is skipped; a raised error aborts the whole `try` body,
discarding every heading collected so far. -/
def collectHeadings : List (Except (List Char) (List Char)) →
    Except (List Char) (List (List Char))
  | [] => .ok []
  | .error e :: _ => .error e
  | .ok text :: rest =>
    match collectHeadings rest with
    | .error e => .error e
    | .ok hs => .ok ((if text.isEmpty then [] else pageHeadings text) ++ hs)

/-- Heading level classification (lines 74–80): one period means level
1, two mean level 2, anything else level 3. -/
def classifyHeading (h : List Char) : HeadingRec :=
  if h.count '.' = 1 then ⟨1, h⟩
  else if h.count '.' = 2 then ⟨2, h⟩
  else ⟨3, h⟩

/-- `extract_document_structure(uploaded_file)`
(`features/content_extraction.py` lines 38–87).  `structure` starts as
`{"title": uploaded_file.name, "headings": []}`; every raised library
error is caught by the enclosing `except`, which returns `structure` as
it stands at that moment: the metadata title survives an error raised
later, while `structure["headings"]` is only assigned after the loop
completes. -/
def extract_document_structure (pdf : PdfInput) : DocStructure :=
  match pdf.opened with
  | .error _ => ⟨pdf.fileName, []⟩
  | .ok rd =>
    match rd.metaTitle with
    | .error _ => ⟨pdf.fileName, []⟩
    | .ok t =>
      let title := if t.isEmpty then pdf.fileName else pyStrip t
      match collectHeadings rd.pages with
      | .error _ => ⟨title, []⟩
      | .ok raw => ⟨title, raw.map classifyHeading⟩

/-- Whether any of the modelled pypdf calls raises for this input. -/
def hasParseError (pdf : PdfInput) : Bool :=
  match pdf.opened with
  | .error _ => true
  | .ok rd =>
    match rd.metaTitle with
    | .error _ => true
    | .ok _ => rd.pages.any fun p => match p with | .error _ => true | .ok _ => false

/-- The title `extract_document_structure` settles on before the page
loop: the stripped metadata title when one was read successfully and is
non-empty, the uploaded filename otherwise. -/
def readTitle (pdf : PdfInput) : List Char :=
  match pdf.opened with
  | .error _ => pdf.fileName
  | .ok rd =>
    match rd.metaTitle with
    | .error _ => pdf.fileName
    | .ok t => if t.isEmpty then pdf.fileName else pyStrip t

theorem collectHeadings_error_of_any {pages : List (Except (List Char) (List Char))}
    (h : (pages.any fun p => match p with | .error _ => true | .ok _ => false) = true) :
    ∃ e, collectHeadings pages = .error e := by
  induction pages with
  | nil => simp at h
  | cons p rest ih =>
    match p with
    | .error e => exact ⟨e, rfl⟩
    | .ok text =>
      simp only [List.any_cons, Bool.or_eq_true] at h
      rcases h with h | h
      · simp at h
      · obtain ⟨e, he⟩ := ih h
        exact ⟨e, by rw [collectHeadings, he]⟩

/-- The first four cleanups of `_preprocess_text` — everything before
the references cut. -/
def preReferencesCleanups (l : List Char) : List Char :=
  stripLineNums true (collapseWs (collapseNl (removeFigRefs l)))

theorem ciMatchAt_mono {pat : List Char} :
    ∀ {l ext : List Char}, ciMatchAt pat l = true → ciMatchAt pat (l ++ ext) = true := by
  induction pat with
  | nil => intro l ext _; rfl
  | cons p ps ih =>
    intro l ext h
    cases l with
    | nil => simp [ciMatchAt] at h
    | cons c cs =>
      rw [ciMatchAt, Bool.and_eq_true] at h
      rw [List.cons_append, ciMatchAt, Bool.and_eq_true]
      exact ⟨h.1, ih h.2⟩

theorem refMarkerAt_mono {l ext : List Char} (h : refMarkerAt l = true) :
    refMarkerAt (l ++ ext) = true := by
  rw [refMarkerAt, Bool.or_eq_true] at h ⊢
  rcases h with h | h
  · exact Or.inl (ciMatchAt_mono h)
  · exact Or.inr (ciMatchAt_mono h)

theorem cutReferences_suffix_exists : ∀ l : List Char,
    ∃ rest, l = cutReferences l ++ rest := by
  intro l
  induction l with
  | nil => exact ⟨[], rfl⟩
  | cons c cs ih =>
    by_cases h : refMarkerAt (c :: cs)
    · exact ⟨c :: cs, by simp [cutReferences, h]⟩
    · obtain ⟨r, hr⟩ := ih
      exact ⟨r, by rw [cutReferences, if_neg h, List.cons_append, ← hr]⟩

theorem containsRefMarker_cutReferences : ∀ l : List Char,
    containsRefMarker (cutReferences l) = false := by
  intro l
  induction l with
  | nil => rfl
  | cons c cs ih =>
    by_cases h : refMarkerAt (c :: cs)
    · simp [cutReferences, h, containsRefMarker]
    · rw [cutReferences, if_neg h, containsRefMarker]
      refine Bool.or_eq_false_iff.mpr ⟨?_, ih⟩
      by_contra hx
      have hx' : refMarkerAt (c :: cutReferences cs) = true := by
        simpa using hx
      obtain ⟨r, hr⟩ := cutReferences_suffix_exists cs
      have : refMarkerAt ((c :: cutReferences cs) ++ r) = true := refMarkerAt_mono hx'
      rw [List.cons_append, ← hr] at this
      exact h this

theorem cutReferences_eq_of_no_marker : ∀ l : List Char,
    containsRefMarker l = false → cutReferences l = l := by
  intro l
  induction l with
  | nil => intro _; rfl
  | cons c cs ih =>
    intro h
    rw [containsRefMarker] at h
    rcases Bool.or_eq_false_iff.mp h with ⟨h1, h2⟩
    rw [cutReferences, if_neg (by simp [h1]), ih h2]

/-! # The claims -/

/-- C7: for every context whose stripped length exceeds the character
budget, `call_llm` truncates the stripped context to the budget and
appends the truncation notice — the sent context is exactly the
`maxContextChars`-character prefix plus the notice, so its length never
exceeds budget + notice length; a stripped context within the budget is
sent unchanged, with no truncation notice appended. -/
theorem call_llm_truncates_context (context : List Char) (maxContextChars : Nat) :
    ((pyStrip context).length > maxContextChars →
      call_llm_context context maxContextChars
        = (pyStrip context).take maxContextChars ++ truncationNotice ∧
      (call_llm_context context maxContextChars).length
        ≤ maxContextChars + truncationNotice.length) ∧
    ((pyStrip context).length ≤ maxContextChars →
      call_llm_context context maxContextChars = pyStrip context) := by
  constructor
  · intro h
    have hif : call_llm_context context maxContextChars
        = (pyStrip context).take maxContextChars ++ truncationNotice := by
      unfold call_llm_context
      rw [if_pos (by omega)]
    refine ⟨hif, ?_⟩
    rw [hif]
    simp only [List.length_append, List.length_take]
    omega
  · intro h
    unfold call_llm_context
    rw [if_neg (by omega)]

theorem call_llm_truncates_context_witness :
    (pyStrip "  abcdefgh  ".toList).length > 5 ∧
    call_llm_context "  abcdefgh  ".toList 5
      = (pyStrip "  abcdefgh  ".toList).take 5 ++ truncationNotice ∧
    (call_llm_context "  abcdefgh  ".toList 5).length ≤ 5 + truncationNotice.length ∧
    (pyStrip "abc".toList).length ≤ 5 ∧
    call_llm_context "abc".toList 5 = pyStrip "abc".toList :=
  ⟨by decide,
   ((call_llm_truncates_context "  abcdefgh  ".toList 5).1 (by decide)).1,
   ((call_llm_truncates_context "  abcdefgh  ".toList 5).1 (by decide)).2,
   by decide,
   (call_llm_truncates_context "abc".toList 5).2 (by decide)⟩

/-- C6: whenever the prompt strips to nothing or the candidate list is
empty, `re_rank_cross_encoders` returns `("", [])`.  The conclusion
holds for **every** `predict` function, so the cross-encoder model is
never consulted on this path, and the function is total — no exception
reaches the caller (a model exception is caught and also yields
`("", [])`). -/
theorem re_rank_empty_inputs {α : Type} [LinearOrder α]
    (predict : List Char → List (List Char) → Except (List Char) (List α))
    (prompt : List Char) (documents : List (List Char)) (topK : Nat)
    (h : documents = [] ∨ pyStrip prompt = []) :
    re_rank_cross_encoders predict prompt documents topK = ([], []) := by
  unfold re_rank_cross_encoders
  rcases h with h | h
  · subst h
    simp
  · rw [if_pos (by simp [h])]

theorem re_rank_empty_inputs_witness :
    pyStrip "   ".toList = [] ∧
    re_rank_cross_encoders (fun _ _ => Except.ok ([] : List Int))
      "   ".toList ["some candidate".toList] 3 = ([], []) :=
  ⟨by decide,
   re_rank_empty_inputs (fun _ _ => Except.ok ([] : List Int))
     "   ".toList ["some candidate".toList] 3 (Or.inr (by decide))⟩

/-- C3: every chunk emitted by `split_documents` has non-empty content
after stripping (the `if chunk.strip()` filter), and the splitter is
deterministic — identical inputs produce identical chunk sequences.
The inherited `split_text` is an arbitrary function parameter, so the
properties hold whatever the library splitter returns. -/
theorem split_documents_nonempty_and_deterministic
    (splitText : List Char → List (List Char)) (documents : List Chunk) :
    (∀ chunk ∈ split_documents splitText documents,
       pyStrip chunk.pageContent ≠ []) ∧
    (∀ documents' : List Chunk, documents = documents' →
       split_documents splitText documents = split_documents splitText documents') := by
  constructor
  · intro chunk hmem
    simp only [split_documents, List.mem_flatMap] at hmem
    obtain ⟨doc, _, hmem2⟩ := hmem
    rw [List.mem_map] at hmem2
    obtain ⟨c, hc, rfl⟩ := hmem2
    rw [List.mem_filter] at hc
    simpa using hc.2
  · intro documents' h
    rw [h]

theorem split_documents_nonempty_and_deterministic_witness :
    ((⟨"plain chunk body".toList, ([] : Meta)⟩ : Chunk) ∈
      split_documents (fun t => [t]) [⟨"plain chunk body".toList, []⟩]) ∧
    pyStrip (⟨"plain chunk body".toList, ([] : Meta)⟩ : Chunk).pageContent ≠ [] ∧
    split_documents (fun t => [t]) [(⟨"plain chunk body".toList, ([] : Meta)⟩ : Chunk)]
      = split_documents (fun t => [t]) [⟨"plain chunk body".toList, []⟩] := by
  have hmem : (⟨"plain chunk body".toList, ([] : Meta)⟩ : Chunk) ∈
      split_documents (fun t => [t]) [⟨"plain chunk body".toList, []⟩] := by
    simp [split_documents, preprocess_text, preReferencesCleanups, removeFigRefs,
      figTailDrop, collapseNl, collapseWs, stripLineNums, lineNumTail, digitRun,
      cutReferences, refMarkerAt, ciMatchAt, isPyWs, headIsWs, pyStrip, trimLeftPy,
      trimRightPy]
  exact ⟨hmem,
    (split_documents_nonempty_and_deterministic (fun t => [t])
        [⟨"plain chunk body".toList, []⟩]).1 _ hmem,
    (split_documents_nonempty_and_deterministic (fun t => [t])
        [⟨"plain chunk body".toList, []⟩]).2 _ rfl⟩

/-- C10: for every input string, the output of `clean_text` contains no
isolated single ASCII letter as a standalone word: pass 3
(`\b([a-zA-Z])\b` → `''`) deletes every one-letter word, including
legitimate words such as "a" or "I", and the later passes never
re-create one. -/
theorem clean_text_removes_isolated_letters (l : List Char) :
    hasIsolatedLetter false (clean_text l) = false :=
  clean_text_no_isolated_aux l

/-- C8: `_preprocess_text` truncates everything from the first
case-insensitive occurrence of "References"/"Bibliography" to the end:
after the other cleanups, the references cut returns a prefix of its
input in which no such marker occurs any more, it removes something
whenever a marker is present, and when no marker is present the text
passes through the cut unmodified — the result is exactly the other
cleanups followed by the final `strip()`. -/
theorem preprocess_text_truncates_references (text : List Char) :
    (∃ rest, preReferencesCleanups text
       = cutReferences (preReferencesCleanups text) ++ rest) ∧
    containsRefMarker (cutReferences (preReferencesCleanups text)) = false ∧
    (containsRefMarker (preReferencesCleanups text) = true →
       cutReferences (preReferencesCleanups text) ≠ preReferencesCleanups text) ∧
    (containsRefMarker (preReferencesCleanups text) = false →
       preprocess_text text = pyStrip (preReferencesCleanups text)) := by
  refine ⟨cutReferences_suffix_exists _, containsRefMarker_cutReferences _, ?_, ?_⟩
  · intro hmark heq
    rw [← heq] at hmark
    rw [containsRefMarker_cutReferences] at hmark
    exact Bool.false_ne_true hmark
  · intro hmark
    unfold preprocess_text preReferencesCleanups at *
    rw [cutReferences_eq_of_no_marker _ hmark]

theorem preprocess_text_truncates_references_witness :
    containsRefMarker (preReferencesCleanups "Intro References tail".toList) = true ∧
    cutReferences (preReferencesCleanups "Intro References tail".toList)
      ≠ preReferencesCleanups "Intro References tail".toList ∧
    containsRefMarker (preReferencesCleanups "plain body text".toList) = false ∧
    preprocess_text "plain body text".toList
      = pyStrip (preReferencesCleanups "plain body text".toList) := by
  have hev1 : containsRefMarker (preReferencesCleanups "Intro References tail".toList)
      = true := by
    simp [preReferencesCleanups, removeFigRefs, figTailDrop, collapseNl, collapseWs,
      stripLineNums, lineNumTail, digitRun, containsRefMarker, refMarkerAt, ciMatchAt,
      isPyWs, headIsWs]
  have hev2 : containsRefMarker (preReferencesCleanups "plain body text".toList)
      = false := by
    simp [preReferencesCleanups, removeFigRefs, figTailDrop, collapseNl, collapseWs,
      stripLineNums, lineNumTail, digitRun, containsRefMarker, refMarkerAt, ciMatchAt,
      isPyWs, headIsWs]
  exact ⟨hev1,
    (preprocess_text_truncates_references "Intro References tail".toList).2.2.1 hev1,
    hev2,
    (preprocess_text_truncates_references "plain body text".toList).2.2.2 hev2⟩

/-- C1 (evidence for the code bug): process one file whose single chunk
is 44 characters long, then run the reset handler.  The session
tracking state is cleared, the app-level client's collections are
cleared, `processed_files.json` is gone — but the persistent `rag_app`
collection used by upsert and query still holds the record, unchanged
by the reset, while the handler reports success.  The spec requires the
reset to delete all vector collections or report an error. -/
theorem reset_leaves_persistent_store_nonempty :
    (reset_yma_vector_db (add_to_vector_collection (fun _ => 0) true
        ⟨[], [], [], [], none⟩
        [⟨"This chunk easily exceeds thirty characters.".toList, []⟩]
        "file_pdf".toList 30)).storeRagApp.length = 1 ∧
    (reset_yma_vector_db (add_to_vector_collection (fun _ => 0) true
        ⟨[], [], [], [], none⟩
        [⟨"This chunk easily exceeds thirty characters.".toList, []⟩]
        "file_pdf".toList 30)).processedFiles = [] ∧
    (reset_yma_vector_db (add_to_vector_collection (fun _ => 0) true
        ⟨[], [], [], [], none⟩
        [⟨"This chunk easily exceeds thirty characters.".toList, []⟩]
        "file_pdf".toList 30)).processedHashes = [] ∧
    (reset_yma_vector_db (add_to_vector_collection (fun _ => 0) true
        ⟨[], [], [], [], none⟩
        [⟨"This chunk easily exceeds thirty characters.".toList, []⟩]
        "file_pdf".toList 30)).appClientCollections = [] ∧
    (reset_yma_vector_db (add_to_vector_collection (fun _ => 0) true
        ⟨[], [], [], [], none⟩
        [⟨"This chunk easily exceeds thirty characters.".toList, []⟩]
        "file_pdf".toList 30)).processedFilesJson = none := by
  decide

/-- C9 counterexample: a PDF whose metadata title reads successfully as
"Some Paper" but whose page extraction raises.  A parse error occurs
and the heading list is empty, but the returned title is the metadata
title, not the uploaded filename — contrary to the claim that any parse
error yields filename-as-title. -/
theorem extract_structure_error_keeps_metadata_title :
    hasParseError ⟨"doc.pdf".toList,
      .ok ⟨.ok "Some Paper".toList, [.error "page error".toList]⟩⟩ = true ∧
    (extract_document_structure ⟨"doc.pdf".toList,
      .ok ⟨.ok "Some Paper".toList, [.error "page error".toList]⟩⟩).headings = [] ∧
    (extract_document_structure ⟨"doc.pdf".toList,
      .ok ⟨.ok "Some Paper".toList, [.error "page error".toList]⟩⟩).title
      ≠ (⟨"doc.pdf".toList,
          .ok ⟨.ok "Some Paper".toList, [.error "page error".toList]⟩⟩ : PdfInput).fileName := by
  decide

/-- C9 (amended): `extract_document_structure` never propagates an
exception (its embedding is a total function, every modelled pypdf
failure being handled by the `except` branch), and whenever any parse
error occurs the result has an empty heading list; its title is the
uploaded filename, except that a metadata title successfully read (and
non-empty) before the error is kept, stripped. -/
theorem extract_structure_error_policy (pdf : PdfInput)
    (h : hasParseError pdf = true) :
    (extract_document_structure pdf).headings = [] ∧
    (extract_document_structure pdf).title = readTitle pdf := by
  cases hop : pdf.opened with
  | error e => simp [extract_document_structure, readTitle, hop]
  | ok rd =>
    cases hmt : rd.metaTitle with
    | error e => simp [extract_document_structure, readTitle, hop, hmt]
    | ok t =>
      have hany : (rd.pages.any fun p =>
          match p with | .error _ => true | .ok _ => false) = true := by
        simp only [hasParseError, hop, hmt] at h
        exact h
      obtain ⟨e, he⟩ := collectHeadings_error_of_any hany
      simp [extract_document_structure, readTitle, hop, hmt, he]

theorem extract_structure_error_policy_witness :
    hasParseError ⟨"doc.pdf".toList,
      .ok ⟨.ok "Some Paper".toList, [.error "page error".toList]⟩⟩ = true ∧
    ((extract_document_structure ⟨"doc.pdf".toList,
        .ok ⟨.ok "Some Paper".toList, [.error "page error".toList]⟩⟩).headings = [] ∧
     (extract_document_structure ⟨"doc.pdf".toList,
        .ok ⟨.ok "Some Paper".toList, [.error "page error".toList]⟩⟩).title
       = readTitle ⟨"doc.pdf".toList,
           .ok ⟨.ok "Some Paper".toList, [.error "page error".toList]⟩⟩) :=
  ⟨by decide, extract_structure_error_policy _ (by decide)⟩

theorem batch_eq_survivors (allSplits : List Chunk) (file : List Char)
    (minLen : Nat) (hash : List Char → Int) :
    add_to_vector_collection_batch allSplits file minLen hash
      = ((survivors minLen hash 0 [] allSplits).map (fun p => pyStrip p.2.pageContent),
         (survivors minLen hash 0 [] allSplits).map
           (fun p => transform_metadata p.2.metadata file p.1
             (pyStrip p.2.pageContent).length),
         (survivors minLen hash 0 [] allSplits).map
           (fun p => file ++ '_' :: natChars p.1)) :=
  add_loop_eq_survivors file minLen hash allSplits 0 []

theorem survivors_id_mem {S : List (Nat × Chunk)} {file : List Char} {j : Nat}
    (h : (file ++ '_' :: natChars j) ∈ S.map (fun p => file ++ '_' :: natChars p.1)) :
    ∃ p ∈ S, p.1 = j := by
  rw [List.mem_map] at h
  obtain ⟨p, hp, heq⟩ := h
  exact ⟨p, hp, natChars_append_injective file heq⟩

/-- C5: within one upsert batch, every assigned identifier is
`{file_name}_{j}` where `j` is the chunk's original position in the
input sequence before any filtering — the document stored at the same
batch position is exactly that chunk's stripped text — and all
identifiers in the batch are pairwise distinct. -/
theorem add_to_vector_collection_id_format_and_nodup (allSplits : List Chunk)
    (file : List Char) (minLen : Nat) (hash : List Char → Int) :
    (add_to_vector_collection_batch allSplits file minLen hash).2.2.Nodup ∧
    (∀ (k : Nat) (idStr : List Char),
      (add_to_vector_collection_batch allSplits file minLen hash).2.2[k]? = some idStr →
      ∃ j chunk, allSplits[j]? = some chunk ∧
        idStr = file ++ '_' :: natChars j ∧
        (add_to_vector_collection_batch allSplits file minLen hash).1[k]?
          = some (pyStrip chunk.pageContent)) := by
  rw [batch_eq_survivors]
  constructor
  · refine List.Pairwise.map _ ?_ (survivors_pairwise allSplits 0 [])
    intro a b hab heq
    have := natChars_append_injective file heq
    omega
  · intro k idStr hid
    simp only [List.getElem?_map] at hid ⊢
    rcases hS : (survivors minLen hash 0 [] allSplits)[k]? with _ | p
    · rw [hS] at hid; simp at hid
    · rw [hS] at hid
      simp only [Option.map_some', Option.some.injEq] at hid
      have hmem : p ∈ survivors minLen hash 0 [] allSplits := by
        exact List.getElem?_mem hS
      obtain ⟨m, hm, hidx, _⟩ := survivors_mem_spec allSplits 0 [] p hmem
      refine ⟨m, p.2, hm, ?_, ?_⟩
      · rw [← hid, hidx]
        simp
      · rfl

/-- C4: in one upsert batch, every stored document has at least the
minimum stripped length (short chunks are excluded), a chunk whose
stripped text is shorter than the minimum contributes no identifier,
and when two chunks of the batch have the same stripped text the later
one is never stored (its identifier is absent) — only the first
occurrence can be. -/
theorem add_to_vector_collection_filters_short_and_duplicates
    (allSplits : List Chunk) (file : List Char) (minLen : Nat)
    (hash : List Char → Int) :
    (∀ d ∈ (add_to_vector_collection_batch allSplits file minLen hash).1,
       minLen ≤ d.length) ∧
    (∀ (j : Nat) (chunk : Chunk), allSplits[j]? = some chunk →
       (pyStrip chunk.pageContent).length < minLen →
       (file ++ '_' :: natChars j)
         ∉ (add_to_vector_collection_batch allSplits file minLen hash).2.2) ∧
    (∀ (i j : Nat) (ci cj : Chunk), i < j →
       allSplits[i]? = some ci → allSplits[j]? = some cj →
       pyStrip ci.pageContent = pyStrip cj.pageContent →
       (file ++ '_' :: natChars j)
         ∉ (add_to_vector_collection_batch allSplits file minLen hash).2.2) := by
  rw [batch_eq_survivors]
  refine ⟨?_, ?_, ?_⟩
  · intro d hd
    rw [List.mem_map] at hd
    obtain ⟨p, hp, rfl⟩ := hd
    obtain ⟨m, _, _, hlen⟩ := survivors_mem_spec allSplits 0 [] p hp
    exact hlen
  · intro j chunk hj hshort hmem
    obtain ⟨p, hp, hpj⟩ := survivors_id_mem hmem
    obtain ⟨m, hm, hidx, hlen⟩ := survivors_mem_spec allSplits 0 [] p hp
    have hmj : m = j := by omega
    subst hmj
    rw [hj] at hm
    have hc : chunk = p.2 := by injection hm
    rw [hc] at hshort
    omega
  · intro i j ci cj hij hi hj heqtext hmem
    obtain ⟨p, hp, hpj⟩ := survivors_id_mem hmem
    obtain ⟨m, hm, hidx, hlen⟩ := survivors_mem_spec allSplits 0 [] p hp
    have hmj : m = j := by omega
    subst hmj
    rw [hj] at hm
    have hc : cj = p.2 := by injection hm
    have hne := survivors_no_earlier_dup allSplits 0 [] p hp i ci hi (by omega)
    rw [hc] at heqtext
    exact hne heqtext

/-- C2: each stored record's metadata is stamped from exactly the chunk
its identifier names: the record whose id is `{file_name}_{j}` carries
`chunk_id = j` and `text_length` equal to that chunk's stripped length,
and two distinct records of the same batch never carry the same
`chunk_id`. -/
theorem add_to_vector_collection_metadata_ties_chunk (allSplits : List Chunk)
    (file : List Char) (minLen : Nat) (hash : List Char → Int) :
    (∀ (k : Nat) (idStr : List Char) (md : Meta),
      (add_to_vector_collection_batch allSplits file minLen hash).2.2[k]? = some idStr →
      (add_to_vector_collection_batch allSplits file minLen hash).2.1[k]? = some md →
      ∃ j chunk, allSplits[j]? = some chunk ∧
        idStr = file ++ '_' :: natChars j ∧
        md = transform_metadata chunk.metadata file j
          (pyStrip chunk.pageContent).length ∧
        lookupMeta md chunkIdKey = some (.nat j) ∧
        lookupMeta md textLengthKey
          = some (.nat (pyStrip chunk.pageContent).length) ∧
        lookupMeta md sourceFileKey = some (.str file)) ∧
    (∀ (k k' : Nat) (md md' : Meta), k ≠ k' →
      (add_to_vector_collection_batch allSplits file minLen hash).2.1[k]? = some md →
      (add_to_vector_collection_batch allSplits file minLen hash).2.1[k']? = some md' →
      lookupMeta md chunkIdKey ≠ lookupMeta md' chunkIdKey) := by
  rw [batch_eq_survivors]
  constructor
  · intro k idStr md hid hmd
    simp only [List.getElem?_map] at hid hmd
    rcases hS : (survivors minLen hash 0 [] allSplits)[k]? with _ | p
    · rw [hS] at hid; simp at hid
    · rw [hS] at hid hmd
      simp only [Option.map_some', Option.some.injEq] at hid hmd
      have hmem : p ∈ survivors minLen hash 0 [] allSplits := List.getElem?_mem hS
      obtain ⟨m, hm, hidx, _⟩ := survivors_mem_spec allSplits 0 [] p hmem
      refine ⟨m, p.2, hm, ?_, ?_, ?_, ?_, ?_⟩
      · rw [← hid, hidx]; simp
      · rw [← hmd, hidx]; simp
      · rw [← hmd, transform_metadata_chunk_id, hidx]; simp
      · rw [← hmd, transform_metadata_text_length]
      · rw [← hmd, transform_metadata_source_file]
  · intro k k' md md' hkk hmd hmd'
    simp only [List.getElem?_map] at hmd hmd'
    rcases hS : (survivors minLen hash 0 [] allSplits)[k]? with _ | p
    · rw [hS] at hmd; simp at hmd
    rcases hS' : (survivors minLen hash 0 [] allSplits)[k']? with _ | p'
    · rw [hS'] at hmd'; simp at hmd'
    rw [hS] at hmd
    rw [hS'] at hmd'
    simp only [Option.map_some', Option.some.injEq] at hmd hmd'
    have hne : p.1 ≠ p'.1 := by
      obtain ⟨hk, hpk⟩ := List.getElem?_eq_some.mp hS
      obtain ⟨hk', hpk'⟩ := List.getElem?_eq_some.mp hS'
      have hpw := List.pairwise_iff_getElem.mp
        (@survivors_pairwise minLen hash allSplits 0 [])
      rcases Nat.lt_or_ge k k' with hlt | hge
      · have := hpw k k' hk hk' hlt
        rw [hpk, hpk'] at this
        omega
      · have hlt' : k' < k := by omega
        have := hpw k' k hk' hk hlt'
        rw [hpk, hpk'] at this
        omega
    rw [← hmd, ← hmd', transform_metadata_chunk_id, transform_metadata_chunk_id]
    intro hcontra
    simp only [Option.some.injEq, MetaVal.nat.injEq] at hcontra
    exact hne hcontra

theorem add_to_vector_collection_id_format_and_nodup_witness :
    (add_to_vector_collection_batch
        [⟨"This chunk easily exceeds thirty characters.".toList, []⟩]
        "f".toList 30 (fun _ => 0)).2.2[0]?
      = some ("f".toList ++ '_' :: natChars 0) ∧
    (add_to_vector_collection_batch
        [⟨"This chunk easily exceeds thirty characters.".toList, []⟩]
        "f".toList 30 (fun _ => 0)).2.2.Nodup ∧
    (∃ j chunk,
      ([⟨"This chunk easily exceeds thirty characters.".toList, []⟩] : List Chunk)[j]?
        = some chunk ∧
      ("f".toList ++ '_' :: natChars 0) = "f".toList ++ '_' :: natChars j ∧
      (add_to_vector_collection_batch
          [⟨"This chunk easily exceeds thirty characters.".toList, []⟩]
          "f".toList 30 (fun _ => 0)).1[0]? = some (pyStrip chunk.pageContent)) :=
  ⟨by decide,
   (add_to_vector_collection_id_format_and_nodup
      [⟨"This chunk easily exceeds thirty characters.".toList, []⟩]
      "f".toList 30 (fun _ => 0)).1,
   (add_to_vector_collection_id_format_and_nodup
      [⟨"This chunk easily exceeds thirty characters.".toList, []⟩]
      "f".toList 30 (fun _ => 0)).2 0 _ (by decide)⟩

theorem add_to_vector_collection_filters_short_and_duplicates_witness :
    (pyStrip "This chunk easily exceeds thirty characters.".toList
        ∈ (add_to_vector_collection_batch
            [⟨"tiny".toList, []⟩,
             ⟨"This chunk easily exceeds thirty characters.".toList, []⟩,
             ⟨"This chunk easily exceeds thirty characters.".toList, []⟩]
            "f".toList 30 (fun _ => 0)).1) ∧
    30 ≤ (pyStrip "This chunk easily exceeds thirty characters.".toList).length ∧
    (pyStrip "tiny".toList).length < 30 ∧
    (("f".toList ++ '_' :: natChars 0)
        ∉ (add_to_vector_collection_batch
            [⟨"tiny".toList, []⟩,
             ⟨"This chunk easily exceeds thirty characters.".toList, []⟩,
             ⟨"This chunk easily exceeds thirty characters.".toList, []⟩]
            "f".toList 30 (fun _ => 0)).2.2) ∧
    (("f".toList ++ '_' :: natChars 2)
        ∉ (add_to_vector_collection_batch
            [⟨"tiny".toList, []⟩,
             ⟨"This chunk easily exceeds thirty characters.".toList, []⟩,
             ⟨"This chunk easily exceeds thirty characters.".toList, []⟩]
            "f".toList 30 (fun _ => 0)).2.2) :=
  ⟨by decide,
   (add_to_vector_collection_filters_short_and_duplicates
      [⟨"tiny".toList, []⟩,
       ⟨"This chunk easily exceeds thirty characters.".toList, []⟩,
       ⟨"This chunk easily exceeds thirty characters.".toList, []⟩]
      "f".toList 30 (fun _ => 0)).1 _ (by decide),
   by decide,
   (add_to_vector_collection_filters_short_and_duplicates
      [⟨"tiny".toList, []⟩,
       ⟨"This chunk easily exceeds thirty characters.".toList, []⟩,
       ⟨"This chunk easily exceeds thirty characters.".toList, []⟩]
      "f".toList 30 (fun _ => 0)).2.1 0 ⟨"tiny".toList, []⟩ (by decide) (by decide),
   (add_to_vector_collection_filters_short_and_duplicates
      [⟨"tiny".toList, []⟩,
       ⟨"This chunk easily exceeds thirty characters.".toList, []⟩,
       ⟨"This chunk easily exceeds thirty characters.".toList, []⟩]
      "f".toList 30 (fun _ => 0)).2.2 1 2
      ⟨"This chunk easily exceeds thirty characters.".toList, []⟩
      ⟨"This chunk easily exceeds thirty characters.".toList, []⟩
      (by decide) (by decide) (by decide) (by decide)⟩

theorem add_to_vector_collection_metadata_ties_chunk_witness :
    (add_to_vector_collection_batch
        [⟨"This chunk easily exceeds thirty characters.".toList, []⟩,
         ⟨"Another chunk comfortably above the threshold.".toList, []⟩]
        "f".toList 30 (fun l => (l.length : Int))).2.1[0]?
      = some (transform_metadata [] "f".toList 0
          (pyStrip "This chunk easily exceeds thirty characters.".toList).length) ∧
    (add_to_vector_collection_batch
        [⟨"This chunk easily exceeds thirty characters.".toList, []⟩,
         ⟨"Another chunk comfortably above the threshold.".toList, []⟩]
        "f".toList 30 (fun l => (l.length : Int))).2.1[1]?
      = some (transform_metadata [] "f".toList 1
          (pyStrip "Another chunk comfortably above the threshold.".toList).length) ∧
    (add_to_vector_collection_batch
        [⟨"This chunk easily exceeds thirty characters.".toList, []⟩,
         ⟨"Another chunk comfortably above the threshold.".toList, []⟩]
        "f".toList 30 (fun l => (l.length : Int))).2.2[0]?
      = some ("f".toList ++ '_' :: natChars 0) ∧
    (∃ j chunk,
      ([⟨"This chunk easily exceeds thirty characters.".toList, []⟩,
        ⟨"Another chunk comfortably above the threshold.".toList, []⟩] : List Chunk)[j]?
        = some chunk ∧
      ("f".toList ++ '_' :: natChars 0) = "f".toList ++ '_' :: natChars j ∧
      transform_metadata [] "f".toList 0
          (pyStrip "This chunk easily exceeds thirty characters.".toList).length
        = transform_metadata chunk.metadata "f".toList j
            (pyStrip chunk.pageContent).length ∧
      lookupMeta (transform_metadata [] "f".toList 0
          (pyStrip "This chunk easily exceeds thirty characters.".toList).length)
        chunkIdKey = some (.nat j) ∧
      lookupMeta (transform_metadata [] "f".toList 0
          (pyStrip "This chunk easily exceeds thirty characters.".toList).length)
        textLengthKey = some (.nat (pyStrip chunk.pageContent).length) ∧
      lookupMeta (transform_metadata [] "f".toList 0
          (pyStrip "This chunk easily exceeds thirty characters.".toList).length)
        sourceFileKey = some (.str "f".toList)) ∧
    lookupMeta (transform_metadata [] "f".toList 0
        (pyStrip "This chunk easily exceeds thirty characters.".toList).length)
      chunkIdKey
      ≠ lookupMeta (transform_metadata [] "f".toList 1
          (pyStrip "Another chunk comfortably above the threshold.".toList).length)
        chunkIdKey :=
  ⟨by decide, by decide, by decide,
   (add_to_vector_collection_metadata_ties_chunk
      [⟨"This chunk easily exceeds thirty characters.".toList, []⟩,
       ⟨"Another chunk comfortably above the threshold.".toList, []⟩]
      "f".toList 30 (fun l => (l.length : Int))).1 0 _ _ (by decide) (by decide),
   (add_to_vector_collection_metadata_ties_chunk
      [⟨"This chunk easily exceeds thirty characters.".toList, []⟩,
       ⟨"Another chunk comfortably above the threshold.".toList, []⟩]
      "f".toList 30 (fun l => (l.length : Int))).2 0 1 _ _ (by decide)
      (by decide) (by decide)⟩
